import Mathlib

/-!
Verification development for the ZenRead reading application.

Text is modelled as `List Char`; a token is a `List Char` (a word, or the
break token `['\n']`).  The definitions below are shallow embeddings of the
corresponding functions in `src/components/Reader.tsx`,
`src/services/parser.ts` and `src/services/storage.ts`.
-/

namespace ZenRead

/-- The break token: the tokenizer pushes the literal string `'\n'`. -/
def nlTok : List Char := ['\n']

/-- Characters removed by JavaScript `String.prototype.trim` (the subset that
can occur inside a newline-free segment, plus `'\n'` itself for safety). -/
def isJsWs (c : Char) : Bool :=
  c = ' ' || c = '\t' || c = '\n' || c = '\r' || c = '\x0B' || c = '\x0C'

/-- JavaScript `seg.trim()`: drop leading and trailing whitespace. -/
def jsTrim (l : List Char) : List Char :=
  ((l.dropWhile isJsWs).reverse.dropWhile isJsWs).reverse

/-- Accumulator-style splitter for `seg.split(/[ ]+/)` followed by dropping
empty pieces: returns the maximal space-free runs of the input.  `acc` holds
the (reversed) word currently being read. -/
def wordsAux (acc : List Char) : List Char → List (List Char)
  | [] => if acc.isEmpty then [] else [acc.reverse]
  | c :: cs =>
    if c = ' ' then
      if acc.isEmpty then wordsAux [] cs else acc.reverse :: wordsAux [] cs
    else wordsAux (c :: acc) cs

/-- Word tokens of one newline-free segment, as in the Reader's parsing
effect: `seg.trim().split(/[ ]+/)` keeping only non-empty pieces. -/
def segWords (seg : List Char) : List (List Char) :=
  wordsAux [] (jsTrim seg)

/-- `text.split(/(\n)/)` restricted to the non-separator pieces: the segments
of the text between newlines (`n` newlines give `n + 1` segments). -/
def splitNl : List Char → List (List Char)
  | [] => [[]]
  | c :: cs =>
    if c = '\n' then [] :: splitNl cs
    else
      match splitNl cs with
      | [] => [[c]]
      | s :: rest => (c :: s) :: rest

/-- Token stream of a segment list: each captured `'\n'` separator becomes its
own break token between the word tokens of adjacent segments. -/
def tokensOfSegs : List (List Char) → List (List Char)
  | [] => []
  | [s] => segWords s
  | s :: s' :: rest => segWords s ++ nlTok :: tokensOfSegs (s' :: rest)

/-- The Reader's tokenization effect (`src/components/Reader.tsx`): split the
document on newlines, each newline becomes a break token, and each remaining
segment is trimmed and split on runs of spaces, dropping empty pieces. -/
def tokenize (t : List Char) : List (List Char) :=
  tokensOfSegs (splitNl t)

/-- Token counter of one segment list, as `countTokens` in
`src/services/parser.ts` counts: one per `'\n'` separator plus one per
non-empty word of each trimmed segment. -/
def countSegs : List (List Char) → Nat
  | [] => 0
  | [s] => (segWords s).length
  | s :: s' :: rest => (segWords s).length + 1 + countSegs (s' :: rest)

/-- `countTokens` from `src/services/parser.ts`. -/
def countTokens (t : List Char) : Nat :=
  countSegs (splitNl t)

/-- Spec-side rejoining of a token stream: word tokens separated by single
spaces, break tokens rendered as newlines (no space next to a break). -/
def rejoin : List (List Char) → List Char
  | [] => []
  | [t] => if t = nlTok then ['\n'] else t
  | t :: u :: ts =>
    (if t = nlTok then ['\n'] else t) ++
      (if t ≠ nlTok ∧ u ≠ nlTok then [' '] else []) ++ rejoin (u :: ts)

/-- Collapse each run of two or more spaces to a single space. -/
def collapseSpaces : List Char → List Char
  | [] => []
  | [c] => [c]
  | c :: d :: cs =>
    if c = ' ' ∧ d = ' ' then collapseSpaces (d :: cs)
    else c :: collapseSpaces (d :: cs)

/-- Whitespace-normalized form of one line: trimmed, with space runs
collapsed. -/
def normalizeLine (l : List Char) : List Char :=
  collapseSpaces (jsTrim l)

/-- Join lines with newlines. -/
def joinNl : List (List Char) → List Char
  | [] => []
  | [l] => l
  | l :: l' :: ls => l ++ '\n' :: joinNl (l' :: ls)

/-- Whitespace-normalized form of a text: every line trimmed and its space
runs collapsed, lines joined by single newlines. -/
def normalizeText (t : List Char) : List Char :=
  joinNl ((splitNl t).map normalizeLine)

/-- Join a list of tokens with single spaces, as `tokens.join(' ')`. -/
def joinSp : List (List Char) → List Char
  | [] => []
  | [w] => w
  | w :: w' :: ws => w ++ ' ' :: joinSp (w' :: ws)

/-! Sentence-range machinery from `src/components/Reader.tsx`. -/

/-- Sentence-ending punctuation. -/
def isPunct (c : Char) : Bool := c = '.' || c = '!' || c = '?'

/-- JavaScript `/[.!?]$/.test(w)`: the last character is sentence-ending
punctuation, or the word ends in such a character followed by a final
newline (the `$` anchor also matches just before a terminal `'\n'`). -/
def testEndPunct (w : List Char) : Bool :=
  match w.reverse with
  | [] => false
  | c :: rest =>
    if c = '\n' then
      match rest with
      | [] => false
      | d :: _ => isPunct d
    else isPunct c

/-- Loop-exit test of both scans in `getSentenceRange`: the probed token is
`undefined` (out of bounds), the break token, or ends a sentence. -/
def stopTok (o : Option (List Char)) : Bool :=
  match o with
  | none => true
  | some w => w == nlTok || testEndPunct w

/-- Backward scan of `getSentenceRange`: from `start = i`, decrement while
`start > 0` and the previous token is not a stop token. -/
def scanStart (words : List (List Char)) : Nat → Nat
  | 0 => 0
  | s + 1 => if stopTok words[s]? then s + 1 else scanStart words s

/-- Forward scan of `getSentenceRange`, written with explicit fuel so that it
is structurally recursive: from `end = e`, increment while
`end < words.length - 1` and the current token is not a stop token.  A fuel of
`words.length` always suffices. -/
def scanEndAux (words : List (List Char)) : Nat → Nat → Nat
  | 0, e => e
  | fuel + 1, e =>
    if e < words.length - 1 then
      if stopTok words[e]? then e else scanEndAux words fuel (e + 1)
    else e

/-- Forward scan of `getSentenceRange`. -/
def scanEnd (words : List (List Char)) (e : Nat) : Nat :=
  scanEndAux words words.length e

/-- Result of `getSentenceRange` (`end` is a Lean keyword, hence `endIdx`). -/
structure SentRange where
  start : Nat
  endIdx : Nat
deriving DecidableEq

/-- `getSentenceRange` from `src/components/Reader.tsx`. -/
def getSentenceRange (words : List (List Char)) (i : Nat) : SentRange :=
  ⟨scanStart words i, scanEnd words i⟩

/-- `navigateBySentence` from `src/components/Reader.tsx`, reduced to the new
index it stores (`direction` is `1` or `-1`; `Math.max(0, range.start - 2)` is
truncated natural subtraction). -/
def navigateBySentence (words : List (List Char)) (currentIndex : Nat)
    (direction : Int) : Nat :=
  let range := getSentenceRange words currentIndex
  if direction = 1 then
    min (words.length - 1) (range.endIdx + 1)
  else
    if currentIndex > range.start + 2 then range.start
    else (getSentenceRange words (range.start - 2)).start

/-! Playback operations from `src/components/Reader.tsx`. -/

/-- `changePosition`: `Math.max(0, Math.min(len - 1, currentIndex + delta))`,
computed in integers exactly as JavaScript does. -/
def changePosition (len : Nat) (currentIndex : Nat) (delta : Int) : Int :=
  max 0 (min ((len : Int) - 1) ((currentIndex : Int) + delta))

/-- `handleWordClick`: clicking a rendered token sets the index to that
token's index. -/
def wordClick (index : Nat) : Nat := index

/-- Ephemeral silent-playback state: the current token index and whether the
timer is still running (`isPlaying` together with `shouldPlayRef`). -/
structure SilentState where
  idx : Nat
  playing : Bool
deriving DecidableEq

/-- One tick of the silent-reading interval in `speakText`: if the index has
reached `len - 1` the machine stops (clears the timer, `isPlaying := false`)
without advancing; otherwise the index advances by exactly one. -/
def silentTick (len : Nat) (st : SilentState) : SilentState :=
  if st.playing = false then st
  else if st.idx ≥ len - 1 then ⟨st.idx, false⟩
  else ⟨st.idx + 1, true⟩

/-- Interval of the silent timer, `60000 / wordsPerMinute` milliseconds. -/
def silentDelay (wpm : ℚ) : ℚ := 60000 / wpm

/-- Number of timer ticks that fit in `t` milliseconds. -/
def elapsedTicks (t wpm : ℚ) : ℤ := ⌊t / silentDelay wpm⌋

/-- Text of a speech chunk: `words.slice(start, end).join(' ')`. -/
def chunkText (words : List (List Char)) (s e : Nat) : List Char :=
  joinSp ((words.drop s).take (e - s))

/-- Word-boundary handler of `speakText`'s utterances: the new index is the
chunk's start plus the number of spaces in the chunk text before the reported
character offset. -/
def boundaryIndex (words : List (List Char)) (s e c : Nat) : Nat :=
  s + List.count ' ' (List.take c (chunkText words s e))

/-! Spritz / wheel pivot from `src/components/Reader.tsx`. -/

/-- Pivot index computed by `renderSpritz`:
`Math.floor((word.length + 1) / 2) - 1`. -/
def spritzPivot (word : List Char) : Int :=
  ((word.length : Int) + 1) / 2 - 1

/-- `getPivot` inside `WheelDisplay`: `if (!w) return 0` guards the
falsy values `undefined` and the empty string. -/
def wheelGetPivot (w : Option (List Char)) : Int :=
  match w with
  | none => 0
  | some w => if w.isEmpty then 0 else ((w.length : Int) + 1) / 2 - 1

/-! Persistence gateway from `src/services/storage.ts`.  The record types
come from `types.ts`, which is not under `src/`; their shapes are modelled
from the spec (section 3). -/

/-- Modelled from the spec: `Folder` of the missing `types.ts` — identifier,
name, nullable parent reference, creation timestamp. -/
structure Folder where
  id : String
  name : String
  parentId : Option String
  createdAt : Int
deriving DecidableEq

/-- Modelled from the spec: `Chapter` of the missing `types.ts` — title,
start position (token index), ordered child chapters. -/
inductive Chapter where
  | node (title : String) (position : Nat) (children : List Chapter)

/-- Modelled from the spec: `Book` (Document) of the missing `types.ts` —
identifier, title, raw text, derived token count, last-read position,
timestamps, optional cover image, optional chapter list, nullable owning
folder reference. -/
structure Book where
  id : String
  title : String
  content : String
  totalWords : Nat
  lastPosition : Nat
  dateAdded : Int
  lastRead : Int
  coverImage : Option String
  chapters : Option (List Chapter)
  parentId : Option String

/-- Modelled from the spec: `GlossaryItem` of the missing `types.ts` —
normalized word key, definition, optional translation/example/phonetic,
optional highlight style, creation timestamp. -/
structure GlossaryItem where
  word : String
  definition : String
  translation : Option String
  «example» : Option String
  phonetic : Option String
  highlightColor : Option String
  highlightBold : Option Bool
  highlightItalic : Option Bool
  highlightUnderline : Option Bool
  createdAt : Int

/-- The four IndexedDB collections: books and folders keyed by `id`, the
two-slot settings store (`'app'` / `'voice'`), and the glossary keyed by
`word`.  The storage layer never inspects the settings payloads, so their
types are parameters. -/
structure Store (α β : Type) where
  books : List Book
  folders : List Folder
  glossary : List GlossaryItem
  app : Option α
  voice : Option β

/-- A store with nothing in it. -/
def emptyStore {α β : Type} : Store α β := ⟨[], [], [], none, none⟩

/-- IndexedDB `store.put` with an in-line `keyPath`: replace the record with
the same key if one exists, else append the new record. -/
def putBy {σ : Type} (key : σ → String) (l : List σ) (x : σ) : List σ :=
  if l.any (fun y => key y == key x) then
    l.map (fun y => if key y == key x then x else y)
  else l ++ [x]

/-- `moveItems` from `src/services/storage.ts`: reparent the listed books and
folders to `target` in one transaction.  A folder is reparented only when its
id differs from the target (`id !== targetParentId`, the code's only cycle
check); a folder whose id equals the target is left untouched. -/
def moveItems {α β : Type} (s : Store α β) (bookIds folderIds : List String)
    (target : Option String) : Store α β :=
  { s with
    books := s.books.map fun b =>
      if bookIds.contains b.id then { b with parentId := target } else b
    folders := s.folders.map fun f =>
      if folderIds.contains f.id && (some f.id != target) then
        { f with parentId := target }
      else f }

/-- Parent reference of the folder with the given id, if any. -/
def folderParent (folders : List Folder) (fid : String) : Option String :=
  (folders.find? (fun f => f.id == fid)).bind (fun f => f.parentId)

/-- Chain of ancestors of a folder obtained by following parent references,
with fuel bounding the walk. -/
def ancestorsAux (folders : List Folder) : Nat → String → List String
  | 0, _ => []
  | fuel + 1, fid =>
    match folderParent folders fid with
    | none => []
    | some p => p :: ancestorsAux folders fuel p

/-- All ancestors of a folder reachable within `folders.length` parent
steps. -/
def ancestors (folders : List Folder) (fid : String) : List String :=
  ancestorsAux folders folders.length fid

/-- The folder-tree invariant: no folder is its own ancestor. -/
def acyclicFolders (folders : List Folder) : Prop :=
  ∀ f ∈ folders, f.id ∉ ancestors folders f.id

/-- Payload of a backup file after `JSON.parse`: every collection is optional
because the importer guards each one (`data.books && Array.isArray(...)`,
`data.settings`, ...). -/
structure BackupData (α β : Type) where
  version : Option Int
  timestamp : Option Int
  books : Option (List Book)
  folders : Option (List Folder)
  glossary : Option (List GlossaryItem)
  settings : Option (Option α × Option β)

/-- Outcome of `JSON.parse` on the input string of `importBackup`: the string
is not JSON (`JSON.parse` throws), it parses to a falsy value (`!data`
throws), or it parses to an object. -/
inductive ParsedBackup (α β : Type) where
  | malformed
  | nullValue
  | value (v : BackupData α β)

/-- JavaScript truthiness of `data.version`: absent and `0` are falsy. -/
def versionTruthy : Option Int → Bool
  | none => false
  | some n => n != 0

/-- Values of the word-keyed record built by `getGlossary` from the glossary
list, in insertion order with later same-word items overwriting earlier
ones. -/
def glossaryValues (l : List GlossaryItem) : List GlossaryItem :=
  l.foldl (putBy GlossaryItem.word) []

/-- `exportBackup` from `src/services/storage.ts`, as the parsed value of the
JSON document it writes (`now` stands for `Date.now()`). -/
def exportBackup {α β : Type} (now : Int) (s : Store α β) : BackupData α β :=
  { version := some 1
    timestamp := some now
    books := some s.books
    folders := some s.folders
    glossary := some (glossaryValues s.glossary)
    settings := some (s.app, s.voice) }

/-- `importBackup` from `src/services/storage.ts`.  The Boolean is `true` on
success; on a malformed string, a falsy parsed value, or a falsy version tag
the function throws before opening the transaction, so the store is returned
unchanged with `false`.  On success every record present in the file is put
(upserted) into its collection in one transaction. -/
def importBackup {α β : Type} (s : Store α β) (p : ParsedBackup α β) :
    Store α β × Bool :=
  match p with
  | .malformed => (s, false)
  | .nullValue => (s, false)
  | .value v =>
    if versionTruthy v.version then
      ({ books := (v.books.getD []).foldl (putBy Book.id) s.books
         folders := (v.folders.getD []).foldl (putBy Folder.id) s.folders
         glossary := (v.glossary.getD []).foldl (putBy GlossaryItem.word)
           s.glossary
         app := match v.settings with
           | none => s.app
           | some sl => match sl.1 with
             | none => s.app
             | some a => some a
         voice := match v.settings with
           | none => s.voice
           | some sl => match sl.2 with
             | none => s.voice
             | some b => some b }, true)
    else (s, false)

/-! Tokenizer counting (claim C10). -/

theorem countSegs_eq_length : ∀ segs, countSegs segs = (tokensOfSegs segs).length
  | [] => rfl
  | [_] => rfl
  | s :: s' :: rest => by
    have ih := countSegs_eq_length (s' :: rest)
    simp only [countSegs, tokensOfSegs, List.length_append, List.length_cons, ih]
    omega

/-- C10: the importer's token counter and the Reader's tokenizer agree — for
every text, `countTokens` (parser.ts) equals the length of the token array the
Reader builds from the same text, so a document's persisted `totalWords`
equals the Reader's token count and persisted positions index the same token
stream. -/
theorem c10_counter_matches_tokenizer (t : List Char) :
    countTokens t = (tokenize t).length :=
  countSegs_eq_length (splitNl t)

/-! Spritz pivot (claim C9). -/

/-- C9: the spritz pivot is `floor((L + 1) / 2) - 1`; for a non-empty word the
focal character sits at that index with the rest split left/right, `"cat"`
pivots at index 1 and `"a"` at index 0, and `WheelDisplay.getPivot` computes
the same value. -/
theorem c9_spritz_pivot (w : List Char) (h : w ≠ []) :
    spritzPivot ['c', 'a', 't'] = 1 ∧
    spritzPivot ['a'] = 0 ∧
    0 ≤ spritzPivot w ∧
    (spritzPivot w).toNat < w.length ∧
    (∃ c, w[(spritzPivot w).toNat]? = some c ∧
      w = w.take (spritzPivot w).toNat ++ c :: w.drop ((spritzPivot w).toNat + 1)) ∧
    wheelGetPivot (some w) = spritzPivot w := by
  have hlen : 1 ≤ w.length := List.length_pos.mpr h
  have hp : (spritzPivot w).toNat < w.length := by
    unfold spritzPivot; omega
  refine ⟨by decide, by decide, by unfold spritzPivot; omega, hp, ?_, ?_⟩
  · refine ⟨w[(spritzPivot w).toNat], List.getElem?_eq_getElem hp, ?_⟩
    have hcat : w.take (spritzPivot w).toNat ++ [w[(spritzPivot w).toNat]] =
        w.take ((spritzPivot w).toNat + 1) := List.take_concat_get' w _ hp
    calc w = w.take ((spritzPivot w).toNat + 1) ++
          w.drop ((spritzPivot w).toNat + 1) := (List.take_append_drop _ w).symm
      _ = _ := by rw [← hcat, List.append_assoc]; rfl
  · have : w.isEmpty = false := by
      cases w with
      | nil => exact absurd rfl h
      | cons c cs => rfl
    simp [wheelGetPivot, spritzPivot, this]

/-- Witness for C9 at the word `"cat"`. -/
theorem c9_spritz_pivot_witness :
    0 ≤ spritzPivot ['c', 'a', 't'] ∧ (spritzPivot ['c', 'a', 't']).toNat < 3 :=
  ⟨(c9_spritz_pivot ['c', 'a', 't'] (by decide)).2.2.1,
    (c9_spritz_pivot ['c', 'a', 't'] (by decide)).2.2.2.1⟩

/-! Silent timer (claim C4). -/

/-- C4: in silent playback the timer fires every `60000 / wpm` milliseconds;
each tick advances the index by exactly one token, and once the index has
reached `totalTokens - 1` the machine stops without advancing.  For a
1000-token document at 300 WPM, 2 seconds contain exactly 10 ticks, after
which the index has advanced from 0 to 10, within 1 of `2 * (300 / 60)`. -/
theorem c4_silent_timer (len : Nat) (st : SilentState) (h : st.playing = true) :
    (st.idx < len - 1 → silentTick len st = ⟨st.idx + 1, true⟩) ∧
    (len - 1 ≤ st.idx → silentTick len st = ⟨st.idx, false⟩) ∧
    elapsedTicks 2000 300 = 10 ∧
    (silentTick 1000)^[10] ⟨0, true⟩ = ⟨10, true⟩ ∧
    ((10 : Int) - 2 * (300 / 60)).natAbs ≤ 1 := by
  refine ⟨?_, ?_, ?_, ?_, by decide⟩
  · intro h1
    simp [silentTick, h, Nat.not_le.mpr h1]
  · intro h1
    simp [silentTick, h, h1]
  · unfold elapsedTicks silentDelay
    norm_num
  · decide

/-- Witness for C4: one tick from index 1 of a 5-token document. -/
theorem c4_silent_timer_witness : silentTick 5 ⟨1, true⟩ = ⟨2, true⟩ :=
  (c4_silent_timer 5 ⟨1, true⟩ rfl).1 (by decide)

/-! Folder moves (claim C1). -/

/-- Two-folder library: `f2` is a child (hence a descendant) of `f1`. -/
def exFolders : List Folder :=
  [⟨"f1", "A", none, 0⟩, ⟨"f2", "B", some "f1", 0⟩]

/-- A store holding only the two folders above. -/
def exStore : Store Unit Unit := ⟨[], exFolders, [], none, none⟩

/-- Counterexample to C1: the store is acyclic and `f2` is a descendant of
`f1`, yet `moveItems` with folder `f1` and target `f2` does change `f1`'s
parent reference to the descendant `f2`, creating a cycle — the move into a
descendant is not rejected. -/
theorem c1_counterexample :
    acyclicFolders exStore.folders ∧
    "f1" ∈ ancestors exStore.folders "f2" ∧
    folderParent (moveItems exStore [] ["f1"] (some "f2")).folders "f1" =
      some "f2" ∧
    ¬ acyclicFolders (moveItems exStore [] ["f1"] (some "f2")).folders := by
  simp only [acyclicFolders]
  decide

/-- C1 (amended): moving a folder into itself is a no-op — a folder whose id
equals the target parent id keeps its record unchanged by `moveItems`.
(Moving a folder into a strict descendant is not rejected; see the
counterexample.) -/
theorem c1_self_move_noop {α β : Type} (s : Store α β)
    (bookIds folderIds : List String) (t : String) (f : Folder)
    (hf : f ∈ s.folders) (hid : f.id = t) :
    f ∈ (moveItems s bookIds folderIds (some t)).folders := by
  unfold moveItems
  refine List.mem_map.mpr ⟨f, hf, ?_⟩
  have : (some f.id != some t) = false := by simp [hid]
  simp [this]

/-- Witness for C1's amended claim: moving folder `f2` into itself leaves its
record in place unchanged. -/
theorem c1_self_move_noop_witness :
    (⟨"f2", "B", some "f1", 0⟩ : Folder) ∈
      (moveItems exStore [] ["f2"] (some "f2")).folders :=
  c1_self_move_noop exStore [] ["f2"] "f2" ⟨"f2", "B", some "f1", 0⟩
    (by decide) rfl

/-! Properties of the backward and forward sentence scans (claims C5, C6). -/

theorem scanStart_le (words : List (List Char)) :
    ∀ i, scanStart words i ≤ i
  | 0 => Nat.le_refl 0
  | i + 1 => by
    have hunf : scanStart words (i + 1) =
        if stopTok words[i]? then i + 1 else scanStart words i := rfl
    rw [hunf]
    split
    · exact Nat.le_refl _
    · exact (scanStart_le words i).trans (Nat.le_succ i)

theorem scanStart_nostop (words : List (List Char)) :
    ∀ i j, scanStart words i ≤ j → j < i → stopTok words[j]? = false
  | 0, j, _, hj => absurd hj (Nat.not_lt_zero j)
  | i + 1, j, hle, hj => by
    have hunf : scanStart words (i + 1) =
        if stopTok words[i]? then i + 1 else scanStart words i := rfl
    by_cases hs : stopTok words[i]? = true
    · rw [hunf, if_pos hs] at hle
      omega
    · rw [hunf, if_neg hs] at hle
      rcases Nat.lt_succ_iff_lt_or_eq.mp hj with h | h
      · exact scanStart_nostop words i j hle h
      · subst h
        simpa using hs

theorem scanStart_base (words : List (List Char)) :
    ∀ i, scanStart words i = 0 ∨ stopTok words[scanStart words i - 1]? = true
  | 0 => Or.inl rfl
  | i + 1 => by
    have hunf : scanStart words (i + 1) =
        if stopTok words[i]? then i + 1 else scanStart words i := rfl
    by_cases hs : stopTok words[i]? = true
    · right
      rw [hunf, if_pos hs]
      simpa using hs
    · rw [hunf, if_neg hs]
      exact scanStart_base words i

theorem scanStart_unique (words : List (List Char)) :
    ∀ k s, s ≤ k →
      (∀ j, s ≤ j → j < k → stopTok words[j]? = false) →
      (s = 0 ∨ stopTok words[s - 1]? = true) →
      scanStart words k = s
  | 0, s, hle, _, _ => by
    have : s = 0 := Nat.le_zero.mp hle
    simp [scanStart, this]
  | k + 1, s, hle, hns, hbase => by
    have hunf : scanStart words (k + 1) =
        if stopTok words[k]? then k + 1 else scanStart words k := rfl
    by_cases hsk : s = k + 1
    · subst hsk
      rcases hbase with h0 | hstop
      · exact absurd h0 (Nat.succ_ne_zero k)
      · have : stopTok words[k]? = true := by simpa using hstop
        rw [hunf, if_pos this]
    · have hsle : s ≤ k := by omega
      have hk : stopTok words[k]? = false := hns k hsle (Nat.lt_succ_self k)
      rw [hunf, if_neg (by simp [hk])]
      exact scanStart_unique words k s hsle
        (fun j h1 h2 => hns j h1 (h2.trans (Nat.lt_succ_self k))) hbase

theorem scanEndAux_ge (words : List (List Char)) :
    ∀ fuel e, e ≤ scanEndAux words fuel e
  | 0, e => Nat.le_refl e
  | fuel + 1, e => by
    have hunf : scanEndAux words (fuel + 1) e =
        if e < words.length - 1 then
          if stopTok words[e]? then e else scanEndAux words fuel (e + 1)
        else e := rfl
    rw [hunf]
    split
    · split
      · exact Nat.le_refl e
      · exact (Nat.le_succ e).trans (scanEndAux_ge words fuel (e + 1))
    · exact Nat.le_refl e

theorem scanEndAux_le (words : List (List Char)) :
    ∀ fuel e, e ≤ words.length - 1 → scanEndAux words fuel e ≤ words.length - 1
  | 0, e, he => he
  | fuel + 1, e, he => by
    have hunf : scanEndAux words (fuel + 1) e =
        if e < words.length - 1 then
          if stopTok words[e]? then e else scanEndAux words fuel (e + 1)
        else e := rfl
    rw [hunf]
    split
    · split
      · exact he
      · exact scanEndAux_le words fuel (e + 1) (by omega)
    · exact he

theorem scanEndAux_nostop (words : List (List Char)) :
    ∀ fuel e j, e ≤ j → j < scanEndAux words fuel e → stopTok words[j]? = false
  | 0, e, j, hej, hj => absurd hj (by simp [scanEndAux]; omega)
  | fuel + 1, e, j, hej, hj => by
    have hunf : scanEndAux words (fuel + 1) e =
        if e < words.length - 1 then
          if stopTok words[e]? then e else scanEndAux words fuel (e + 1)
        else e := rfl
    rw [hunf] at hj
    by_cases hcond : e < words.length - 1
    · rw [if_pos hcond] at hj
      by_cases hse : stopTok words[e]? = true
      · rw [if_pos hse] at hj
        omega
      · rw [if_neg hse] at hj
        rcases Nat.eq_or_lt_of_le hej with h | h
        · subst h
          simpa using hse
        · exact scanEndAux_nostop words fuel (e + 1) j h hj
    · rw [if_neg hcond] at hj
      omega

theorem scanEndAux_stop (words : List (List Char)) :
    ∀ fuel e, words.length - 1 ≤ e + fuel →
      words.length - 1 ≤ scanEndAux words fuel e ∨
        stopTok words[scanEndAux words fuel e]? = true
  | 0, e, hfuel => Or.inl (by simpa [scanEndAux] using hfuel)
  | fuel + 1, e, hfuel => by
    have hunf : scanEndAux words (fuel + 1) e =
        if e < words.length - 1 then
          if stopTok words[e]? then e else scanEndAux words fuel (e + 1)
        else e := rfl
    rw [hunf]
    by_cases hcond : e < words.length - 1
    · rw [if_pos hcond]
      by_cases hse : stopTok words[e]? = true
      · rw [if_pos hse]
        exact Or.inr hse
      · rw [if_neg hse]
        exact scanEndAux_stop words fuel (e + 1) (by omega)
    · rw [if_neg hcond]
      exact Or.inl (by omega)

theorem scanEndAux_unique (words : List (List Char)) :
    ∀ fuel k r, k ≤ r → r ≤ words.length - 1 →
      (∀ j, k ≤ j → j < r → stopTok words[j]? = false) →
      (words.length - 1 ≤ r ∨ stopTok words[r]? = true) →
      words.length - 1 ≤ k + fuel →
      scanEndAux words fuel k = r
  | 0, k, r, hkr, hr, _, _, hfuel => by
    have : k = r := by omega
    simpa [scanEndAux] using this
  | fuel + 1, k, r, hkr, hr, hns, hstop, hfuel => by
    have hunf : scanEndAux words (fuel + 1) k =
        if k < words.length - 1 then
          if stopTok words[k]? then k else scanEndAux words fuel (k + 1)
        else k := rfl
    rcases Nat.eq_or_lt_of_le hkr with heq | hlt
    · subst heq
      rw [hunf]
      by_cases hcond : k < words.length - 1
      · rcases hstop with h | h
        · omega
        · rw [if_pos hcond, if_pos h]
      · rw [if_neg hcond]
    · have hcond : k < words.length - 1 := by omega
      have hk : stopTok words[k]? = false := hns k (Nat.le_refl k) hlt
      rw [hunf, if_pos hcond, if_neg (by simp [hk])]
      exact scanEndAux_unique words fuel (k + 1) r hlt hr
        (fun j h1 h2 => hns j (by omega) h2) hstop (by omega)

/-- C6: sentence-range lookup is idempotent — for any position `i` of the
token array, every index `k` inside the detected range (including the range's
own start) yields the same range again. -/
theorem c6_sentence_range_idempotent (words : List (List Char)) (i k : Nat)
    (hi : i < words.length)
    (hk1 : (getSentenceRange words i).start ≤ k)
    (hk2 : k ≤ (getSentenceRange words i).endIdx) :
    getSentenceRange words k = getSentenceRange words i := by
  have hlen : 1 ≤ words.length := by omega
  have hi' : i ≤ words.length - 1 := by omega
  simp only [getSentenceRange, scanEnd] at hk1 hk2 ⊢
  have hr_le : scanEndAux words words.length i ≤ words.length - 1 :=
    scanEndAux_le words words.length i hi'
  have hr_stop : words.length - 1 ≤ scanEndAux words words.length i ∨
      stopTok words[scanEndAux words words.length i]? = true :=
    scanEndAux_stop words words.length i (by omega)
  have hs_le : scanStart words i ≤ i := scanStart_le words i
  have hnostop : ∀ j, scanStart words i ≤ j →
      j < scanEndAux words words.length i → stopTok words[j]? = false := by
    intro j h1 h2
    by_cases hji : j < i
    · exact scanStart_nostop words i j h1 hji
    · exact scanEndAux_nostop words words.length i j (by omega) h2
  have hstart : scanStart words k = scanStart words i :=
    scanStart_unique words k (scanStart words i) hk1
      (fun j h1 h2 => hnostop j h1 (by omega)) (scanStart_base words i)
  have hend : scanEndAux words words.length k =
      scanEndAux words words.length i :=
    scanEndAux_unique words words.length k (scanEndAux words words.length i)
      hk2 hr_le (fun j h1 h2 => hnostop j (by omega) h2) hr_stop (by omega)
  rw [hstart, hend]

/-- Witness for C6 on the array `["Hi.", "yo"]` at `i = k = 1`. -/
theorem c6_sentence_range_idempotent_witness :
    getSentenceRange [['H', 'i', '.'], ['y', 'o']] 1 =
      getSentenceRange [['H', 'i', '.'], ['y', 'o']] 1 :=
  c6_sentence_range_idempotent [['H', 'i', '.'], ['y', 'o']] 1 1
    (by decide) (by decide) (by decide)

/-- C5: backward sentence seek follows the stated policy — when the current
index is more than two tokens past the start of its sentence range the seek
returns to that start, otherwise to the start of the range computed from two
tokens before the current sentence's start; the range start is delimited by
tokens ending in sentence punctuation or break tokens (the `stopTok`
predicate), as the last two conjuncts characterize. -/
theorem c5_backward_sentence_seek (words : List (List Char)) (i : Nat) :
    (i > (getSentenceRange words i).start + 2 →
      navigateBySentence words i (-1) = (getSentenceRange words i).start) ∧
    (i ≤ (getSentenceRange words i).start + 2 →
      navigateBySentence words i (-1) =
        (getSentenceRange words ((getSentenceRange words i).start - 2)).start) ∧
    (∀ j, (getSentenceRange words i).start ≤ j → j < i →
      stopTok words[j]? = false) ∧
    ((getSentenceRange words i).start = 0 ∨
      stopTok words[(getSentenceRange words i).start - 1]? = true) := by
  refine ⟨?_, ?_, ?_, ?_⟩
  · intro h
    rw [navigateBySentence, if_neg (by decide), if_pos h]
  · intro h
    rw [navigateBySentence, if_neg (by decide), if_neg (by omega)]
  · exact fun j h1 h2 => scanStart_nostop words i j h1 h2
  · exact scanStart_base words i

/-- Witness for C5 on `["a", "b", "c", "d"]` at index 3 (three tokens past the
sentence start 0). -/
theorem c5_backward_sentence_seek_witness :
    navigateBySentence [['a'], ['b'], ['c'], ['d']] 3 (-1) =
      (getSentenceRange [['a'], ['b'], ['c'], ['d']] 3).start :=
  (c5_backward_sentence_seek [['a'], ['b'], ['c'], ['d']] 3).1 (by decide)

/-! Index-bound helpers (claim C2). -/

theorem count_space_joinSp :
    ∀ l : List (List Char), (∀ w ∈ l, ' ' ∉ w) →
      List.count ' ' (joinSp l) = l.length - 1
  | [], _ => rfl
  | [w], h => by
    have : List.count ' ' w = 0 :=
      List.count_eq_zero.mpr (h w (List.mem_singleton.mpr rfl))
    simpa [joinSp] using this
  | w :: w' :: ws, h => by
    have ih := count_space_joinSp (w' :: ws)
      (fun x hx => h x (List.mem_cons_of_mem w hx))
    have hw : List.count ' ' w = 0 :=
      List.count_eq_zero.mpr (h w (List.mem_cons_self w _))
    have hunf : joinSp (w :: w' :: ws) = w ++ ' ' :: joinSp (w' :: ws) := rfl
    rw [hunf, List.count_append, List.count_cons, hw, ih]
    simp

theorem boundaryIndex_bounds (words : List (List Char)) (s e c : Nat)
    (hse : s < e) (he : e ≤ words.length) (hsp : ∀ w ∈ words, ' ' ∉ w) :
    s ≤ boundaryIndex words s e c ∧
      boundaryIndex words s e c ≤ words.length - 1 := by
  have hsub : List.Sublist ((words.drop s).take (e - s)) words :=
    (List.take_sublist _ _).trans (List.drop_sublist _ _)
  have hslice : ∀ w ∈ (words.drop s).take (e - s), ' ' ∉ w :=
    fun w hw => hsp w (hsub.subset hw)
  have hlen : ((words.drop s).take (e - s)).length = e - s := by
    rw [List.length_take, List.length_drop]
    omega
  have hcount : List.count ' ' (chunkText words s e) = e - s - 1 := by
    rw [chunkText, count_space_joinSp _ hslice, hlen]
  have htake : List.count ' ' (List.take c (chunkText words s e)) ≤ e - s - 1 := by
    calc List.count ' ' (List.take c (chunkText words s e))
        ≤ List.count ' ' (chunkText words s e) :=
          (List.take_sublist _ _).count_le ' '
      _ = e - s - 1 := hcount
  unfold boundaryIndex
  omega

theorem navigateBySentence_le (words : List (List Char)) (i : Nat) (dir : Int)
    (hi : i ≤ words.length - 1) :
    navigateBySentence words i dir ≤ words.length - 1 := by
  have h1 : scanStart words (scanStart words i - 2) ≤
      scanStart words i - 2 := scanStart_le words _
  have h2 : scanStart words i ≤ i := scanStart_le words i
  by_cases hdir : dir = 1
  · simp only [navigateBySentence, if_pos hdir]
    exact Nat.min_le_left _ _
  · by_cases hgt : i > (getSentenceRange words i).start + 2
    · have hgt' : i > scanStart words i + 2 := by
        simpa [getSentenceRange] using hgt
      simp only [navigateBySentence, if_neg hdir, getSentenceRange, if_pos hgt']
      omega
    · have hgt' : ¬ i > scanStart words i + 2 := by
        simpa [getSentenceRange] using hgt
      simp only [navigateBySentence, if_neg hdir, getSentenceRange, if_neg hgt']
      omega

/-- C2: for every non-empty token array, every seek/advance operation keeps
the current index within `[0, totalTokens - 1]`: fixed-delta seeks clamp to
the last index past the end and to zero before the start, sentence seeks,
word clicks, silent-timer ticks and speech-boundary advances all land inside
the document. -/
theorem c2_index_bounds (words : List (List Char)) (hw : words ≠ []) :
    (∀ (cur : Nat) (delta : Int),
      0 ≤ changePosition words.length cur delta ∧
        changePosition words.length cur delta ≤ (words.length : Int) - 1) ∧
    (∀ (cur : Nat) (delta : Int),
      (words.length : Int) - 1 < (cur : Int) + delta →
        changePosition words.length cur delta = (words.length : Int) - 1) ∧
    (∀ (cur : Nat) (delta : Int), (cur : Int) + delta < 0 →
        changePosition words.length cur delta = 0) ∧
    (∀ (i : Nat) (dir : Int), i ≤ words.length - 1 →
        navigateBySentence words i dir ≤ words.length - 1) ∧
    (∀ st : SilentState, st.idx ≤ words.length - 1 →
        (silentTick words.length st).idx ≤ words.length - 1) ∧
    (∀ i : Nat, i < words.length → wordClick i ≤ words.length - 1) ∧
    (∀ s e c : Nat, s < e → e ≤ words.length → (∀ w ∈ words, ' ' ∉ w) →
        s ≤ boundaryIndex words s e c ∧
          boundaryIndex words s e c ≤ words.length - 1) := by
  have hlen : 1 ≤ words.length := List.length_pos.mpr hw
  refine ⟨?_, ?_, ?_, ?_, ?_, ?_, ?_⟩
  · intro cur delta
    unfold changePosition
    omega
  · intro cur delta h
    unfold changePosition
    omega
  · intro cur delta h
    unfold changePosition
    omega
  · exact fun i dir hi => navigateBySentence_le words i dir hi
  · intro st hst
    unfold silentTick
    split
    · exact hst
    · split
      · exact hst
      · simp only []
        omega
  · intro i hi
    unfold wordClick
    omega
  · exact fun s e c h1 h2 h3 => boundaryIndex_bounds words s e c h1 h2 h3

/-- Witness for C2: a backward over-seek on a three-token document clamps
into bounds. -/
theorem c2_index_bounds_witness :
    0 ≤ changePosition 3 5 (-100) ∧ changePosition 3 5 (-100) ≤ (3 : Int) - 1 :=
  (c2_index_bounds [['a'], ['b'], ['c']] (by decide)).1 5 (-100)

/-! Tokenize/rejoin development (claim C3). -/

theorem splitNl_ne_nil : ∀ t : List Char, splitNl t ≠ []
  | [] => by simp [splitNl]
  | c :: cs => by
    by_cases h : c = '\n'
    · simp [splitNl, h]
    · simp only [splitNl, if_neg h]
      cases hs : splitNl cs <;> simp

theorem splitNl_no_nl : ∀ t : List Char, ∀ s ∈ splitNl t, '\n' ∉ s
  | [], s, hs => by
    simp [splitNl] at hs
    simp [hs]
  | c :: cs, s, hs => by
    by_cases h : c = '\n'
    · simp only [splitNl, if_pos h] at hs
      rcases List.mem_cons.mp hs with h' | h'
      · simp [h']
      · exact splitNl_no_nl cs s h'
    · simp only [splitNl, if_neg h] at hs
      cases hsplit : splitNl cs with
      | nil => exact absurd hsplit (splitNl_ne_nil cs)
      | cons s0 rest =>
        rw [hsplit] at hs
        rcases List.mem_cons.mp hs with h' | h'
        · subst h'
          intro hmem
          rcases List.mem_cons.mp hmem with h'' | h''
          · exact h h''.symm
          · exact splitNl_no_nl cs s0 (hsplit ▸ List.mem_cons_self s0 rest) h''
        · exact splitNl_no_nl cs s (hsplit ▸ List.mem_cons_of_mem s0 h')

theorem wordsAux_ne_nil : ∀ (l acc : List Char), acc ≠ [] → wordsAux acc l ≠ []
  | [], acc, h => by simp [wordsAux, h]
  | c :: cs, acc, h => by
    by_cases hc : c = ' '
    · have hne : acc.isEmpty = false := by
        cases acc
        · exact absurd rfl h
        · rfl
      simp [wordsAux, hc, hne]
    · simp only [wordsAux, if_neg hc]
      exact wordsAux_ne_nil cs (c :: acc) (by simp)

theorem wordsAux_mem_chars :
    ∀ (l acc : List Char) (w : List Char) (c : Char),
      w ∈ wordsAux acc l → c ∈ w → c ∈ acc ∨ c ∈ l
  | [], acc, w, c, hw, hc => by
    by_cases hne : acc.isEmpty
    · simp [wordsAux, hne] at hw
    · simp [wordsAux, hne] at hw
      subst hw
      exact Or.inl (List.mem_reverse.mp hc)
  | x :: xs, acc, w, c, hw, hc => by
    by_cases hx : x = ' '
    · by_cases hne : acc.isEmpty
      · rw [wordsAux, if_pos hx, if_pos hne] at hw
        rcases wordsAux_mem_chars xs [] w c hw hc with h | h
        · simp at h
        · exact Or.inr (List.mem_cons_of_mem x h)
      · rw [wordsAux, if_pos hx, if_neg hne] at hw
        rcases List.mem_cons.mp hw with h | h
        · subst h
          exact Or.inl (List.mem_reverse.mp hc)
        · rcases wordsAux_mem_chars xs [] w c h hc with h' | h'
          · simp at h'
          · exact Or.inr (List.mem_cons_of_mem x h')
    · rw [wordsAux, if_neg hx] at hw
      rcases wordsAux_mem_chars xs (x :: acc) w c hw hc with h | h
      · rcases List.mem_cons.mp h with h' | h'
        · exact Or.inr (h' ▸ List.mem_cons_self x xs)
        · exact Or.inl h'
      · exact Or.inr (List.mem_cons_of_mem x h)

theorem mem_jsTrim (l : List Char) : ∀ c ∈ jsTrim l, c ∈ l := by
  intro c hc
  unfold jsTrim at hc
  rw [List.mem_reverse] at hc
  have h1 : c ∈ (l.dropWhile isJsWs).reverse :=
    (List.dropWhile_sublist isJsWs).subset hc
  rw [List.mem_reverse] at h1
  exact (List.dropWhile_sublist isJsWs).subset h1

theorem head?_dropWhile_false {γ : Type} (p : γ → Bool) (l : List γ) (c : γ)
    (h : (l.dropWhile p).head? = some c) : p c = false := by
  have := List.head?_dropWhile_not p l
  rw [h] at this
  exact this

theorem jsTrim_getLast?_ne_space (l : List Char) :
    (jsTrim l).getLast? ≠ some ' ' := by
  intro h
  unfold jsTrim at h
  rw [List.getLast?_reverse] at h
  have := head?_dropWhile_false isJsWs (l.dropWhile isJsWs).reverse ' ' h
  simp [isJsWs] at this

theorem jsTrim_head?_ne_space (l : List Char) :
    (jsTrim l).head? ≠ some ' ' := by
  intro h
  have hpfx : jsTrim l <+: l.dropWhile isJsWs := by
    unfold jsTrim
    have := List.reverse_prefix.mpr
      (List.dropWhile_suffix (l := (l.dropWhile isJsWs).reverse) isJsWs)
    simpa using this
  obtain ⟨t, ht⟩ := hpfx
  cases hj : jsTrim l with
  | nil => rw [hj] at h; simp at h
  | cons c cs =>
    rw [hj] at h ht
    simp at h
    subst h
    have : (l.dropWhile isJsWs).head? = some ' ' := by
      rw [← ht]; rfl
    have := head?_dropWhile_false isJsWs l ' ' this
    simp [isJsWs] at this

theorem wordsAux_no_space :
    ∀ (l acc : List Char), ' ' ∉ acc → ∀ w ∈ wordsAux acc l, ' ' ∉ w
  | [], acc, hacc, w, hw => by
    by_cases hne : acc.isEmpty
    · simp [wordsAux, hne] at hw
    · simp [wordsAux, hne] at hw
      subst hw
      simpa using hacc
  | x :: xs, acc, hacc, w, hw => by
    by_cases hx : x = ' '
    · by_cases hne : acc.isEmpty
      · rw [wordsAux, if_pos hx, if_pos hne] at hw
        exact wordsAux_no_space xs [] (by simp) w hw
      · rw [wordsAux, if_pos hx, if_neg hne] at hw
        rcases List.mem_cons.mp hw with h | h
        · subst h
          simpa using hacc
        · exact wordsAux_no_space xs [] (by simp) w h
    · rw [wordsAux, if_neg hx] at hw
      refine wordsAux_no_space xs (x :: acc) ?_ w hw
      intro hmem
      rcases List.mem_cons.mp hmem with h | h
      · exact hx h.symm
      · exact hacc h

theorem segWords_no_nl (seg : List Char) (h : '\n' ∉ seg) :
    ∀ w ∈ segWords seg, w ≠ nlTok := by
  intro w hw heq
  have hmem : '\n' ∈ w := by simp [heq, nlTok]
  rcases wordsAux_mem_chars (jsTrim seg) [] w '\n' hw hmem with h' | h'
  · simp at h'
  · exact h (mem_jsTrim seg '\n' h')

theorem collapseSpaces_cons_ne (d : Char) (cs : List Char) (hd : d ≠ ' ') :
    collapseSpaces (d :: cs) = d :: collapseSpaces cs := by
  cases cs with
  | nil => rfl
  | cons e cs' =>
    have h : ¬(d = ' ' ∧ e = ' ') := fun hp => hd hp.1
    simp [collapseSpaces, h]

theorem joinSp_cons_ne_nil (x : List Char) (ws : List (List Char))
    (h : ws ≠ []) : joinSp (x :: ws) = x ++ ' ' :: joinSp ws := by
  cases ws with
  | nil => exact absurd rfl h
  | cons w ws' => rfl

theorem joinSp_wordsAux :
    ∀ (n : Nat) (l : List Char), l.length ≤ n → l.getLast? ≠ some ' ' →
      ∀ acc : List Char, acc ≠ [] →
        joinSp (wordsAux acc l) = acc.reverse ++ collapseSpaces l := by
  intro n
  induction n with
  | zero =>
    intro l hl _ acc hacc
    have hnil : l = [] := List.length_eq_zero.mp (Nat.le_zero.mp hl)
    subst hnil
    have hne : acc.isEmpty = false := by
      cases acc
      · exact absurd rfl hacc
      · rfl
    simp [wordsAux, hne, joinSp, collapseSpaces]
  | succ n ih =>
    intro l hl hlast acc hacc
    have hne : acc.isEmpty = false := by
      cases acc
      · exact absurd rfl hacc
      · rfl
    cases l with
    | nil => simp [wordsAux, hne, joinSp, collapseSpaces]
    | cons c rest =>
      cases rest with
      | nil =>
        have hc : c ≠ ' ' := by
          intro h
          exact hlast (by simp [h])
        have e1 : wordsAux acc [c] = [(c :: acc).reverse] := by
          simp [wordsAux, hc]
        rw [e1]
        simp [joinSp, collapseSpaces, List.reverse_cons]
      | cons d cs =>
        by_cases hc : c = ' '
        · subst hc
          by_cases hd : d = ' '
          · subst hd
            have e1 : wordsAux acc (' ' :: ' ' :: cs) =
                wordsAux acc (' ' :: cs) := by
              simp [wordsAux, hne]
            have hlast' : (' ' :: cs).getLast? ≠ some ' ' := by
              rwa [List.getLast?_cons_cons] at hlast
            rw [e1, ih (' ' :: cs) (by simp at hl ⊢; omega) hlast' acc hacc]
            have e2 : collapseSpaces (' ' :: ' ' :: cs) =
                collapseSpaces (' ' :: cs) := by
              simp [collapseSpaces]
            rw [e2]
          · have e1 : wordsAux acc (' ' :: d :: cs) =
                acc.reverse :: wordsAux [d] cs := by
              simp [wordsAux, hne, hd]
            rw [e1]
            have hws : wordsAux [d] cs ≠ [] :=
              wordsAux_ne_nil cs [d] (by simp)
            rw [joinSp_cons_ne_nil _ _ hws]
            have hlcs : cs.getLast? ≠ some ' ' := by
              cases cs with
              | nil => simp
              | cons e cs' =>
                rw [List.getLast?_cons_cons, List.getLast?_cons_cons] at hlast
                exact hlast
            rw [ih cs (by simp at hl ⊢; omega) hlcs [d] (by simp)]
            have e2 : collapseSpaces (' ' :: d :: cs) =
                ' ' :: collapseSpaces (d :: cs) := by
              have h : ¬(' ' = ' ' ∧ d = ' ') := fun hp => hd hp.2
              simp [collapseSpaces, h, hd]
            rw [e2, collapseSpaces_cons_ne d cs hd]
            simp
        · have e1 : wordsAux acc (c :: d :: cs) =
              wordsAux (c :: acc) (d :: cs) := by
            simp [wordsAux, hc]
          have hlast' : (d :: cs).getLast? ≠ some ' ' := by
            rwa [List.getLast?_cons_cons] at hlast
          rw [e1, ih (d :: cs) (by simp at hl ⊢; omega) hlast' (c :: acc)
            (by simp)]
          rw [collapseSpaces_cons_ne c (d :: cs) hc]
          simp [List.reverse_cons]

theorem joinSp_segWords_trim (l : List Char)
    (hhead : l.head? ≠ some ' ') (hlast : l.getLast? ≠ some ' ') :
    joinSp (wordsAux [] l) = collapseSpaces l := by
  cases l with
  | nil => rfl
  | cons c cs =>
    have hc : c ≠ ' ' := by
      intro h
      exact hhead (by simp [h])
    have e1 : wordsAux [] (c :: cs) = wordsAux [c] cs := by
      simp [wordsAux, hc]
    have hlcs : cs.getLast? ≠ some ' ' := by
      cases cs with
      | nil => simp
      | cons e cs' =>
        rwa [List.getLast?_cons_cons] at hlast
    rw [e1, joinSp_wordsAux cs.length cs (Nat.le_refl _) hlcs [c] (by simp),
      collapseSpaces_cons_ne c cs hc]
    simp

theorem joinSp_segWords (seg : List Char) :
    joinSp (segWords seg) = normalizeLine seg :=
  joinSp_segWords_trim (jsTrim seg) (jsTrim_head?_ne_space seg)
    (jsTrim_getLast?_ne_space seg)

theorem rejoin_nl_cons (ts : List (List Char)) :
    rejoin (nlTok :: ts) = '\n' :: rejoin ts := by
  cases ts with
  | nil => simp [rejoin]
  | cons u ts' => simp [rejoin]

theorem rejoin_eq_joinSp :
    ∀ ws : List (List Char), (∀ w ∈ ws, w ≠ nlTok) → rejoin ws = joinSp ws
  | [], _ => rfl
  | [w], h => by simp [rejoin, joinSp, h w (by simp)]
  | w :: w' :: ws', h => by
    have e : rejoin (w :: w' :: ws') =
        (if w = nlTok then ['\n'] else w) ++
          (if w ≠ nlTok ∧ w' ≠ nlTok then [' '] else []) ++
          rejoin (w' :: ws') := rfl
    rw [e, if_neg (h w (by simp)),
      if_pos ⟨h w (by simp), h w' (by simp)⟩,
      rejoin_eq_joinSp (w' :: ws') (fun x hx => h x (List.mem_cons_of_mem w hx))]
    simp [joinSp]

theorem rejoin_words_append_nl :
    ∀ (ws ts : List (List Char)), (∀ w ∈ ws, w ≠ nlTok) →
      rejoin (ws ++ nlTok :: ts) = joinSp ws ++ '\n' :: rejoin ts
  | [], ts, _ => by simp [rejoin_nl_cons, joinSp]
  | [w], ts, h => by
    have hw : w ≠ nlTok := h w (by simp)
    have e : rejoin (w :: nlTok :: ts) =
        (if w = nlTok then ['\n'] else w) ++
          (if w ≠ nlTok ∧ nlTok ≠ nlTok then [' '] else []) ++
          rejoin (nlTok :: ts) := rfl
    simp only [List.cons_append, List.nil_append]
    rw [e, if_neg hw, if_neg (by simp), rejoin_nl_cons]
    simp [joinSp]
  | w :: w' :: ws', ts, h => by
    have hw : w ≠ nlTok := h w (by simp)
    have hw' : w' ≠ nlTok := h w' (by simp)
    have e : rejoin (w :: w' :: (ws' ++ nlTok :: ts)) =
        (if w = nlTok then ['\n'] else w) ++
          (if w ≠ nlTok ∧ w' ≠ nlTok then [' '] else []) ++
          rejoin (w' :: (ws' ++ nlTok :: ts)) := rfl
    have ih := rejoin_words_append_nl (w' :: ws') ts
      (fun x hx => h x (List.mem_cons_of_mem w hx))
    simp only [List.cons_append] at ih ⊢
    rw [e, if_neg hw, if_pos ⟨hw, hw'⟩, ih]
    have e2 : joinSp (w :: w' :: ws') = w ++ ' ' :: joinSp (w' :: ws') := rfl
    rw [e2]
    simp

theorem rejoin_tokensOfSegs :
    ∀ segs : List (List Char), (∀ s ∈ segs, '\n' ∉ s) →
      rejoin (tokensOfSegs segs) = joinNl (segs.map normalizeLine)
  | [], _ => rfl
  | [s], h => by
    have hnl := segWords_no_nl s (h s (by simp))
    have e : tokensOfSegs [s] = segWords s := rfl
    rw [e, rejoin_eq_joinSp (segWords s) hnl, joinSp_segWords]
    rfl
  | s :: s' :: rest, h => by
    have hwords := segWords_no_nl s (h s (by simp))
    have e : tokensOfSegs (s :: s' :: rest) =
        segWords s ++ nlTok :: tokensOfSegs (s' :: rest) := rfl
    rw [e, rejoin_words_append_nl _ _ hwords,
      rejoin_tokensOfSegs (s' :: rest)
        (fun x hx => h x (List.mem_cons_of_mem s hx)),
      joinSp_segWords]
    have e2 : joinNl (normalizeLine s :: normalizeLine s' ::
        rest.map normalizeLine) =
        normalizeLine s ++ '\n' ::
          joinNl (normalizeLine s' :: rest.map normalizeLine) := rfl
    simp only [List.map_cons]
    rw [e2]

/-- C3: tokenization is deterministic (equal inputs give equal token
sequences, hence equal token counts), and rejoining the tokens with single
spaces while rendering break tokens as newlines reproduces the
whitespace-normalized form of the original text (each line trimmed, space
runs collapsed). -/
theorem c3_tokenize_deterministic_rejoin (t1 t2 : List Char) (h : t1 = t2) :
    tokenize t1 = tokenize t2 ∧ rejoin (tokenize t1) = normalizeText t1 := by
  subst h
  exact ⟨rfl, rejoin_tokensOfSegs (splitNl t1) (splitNl_no_nl t1)⟩

/-- Witness for C3 on the text `"a  b\nc"`. -/
theorem c3_tokenize_deterministic_rejoin_witness :
    tokenize ['a', ' ', ' ', 'b', '\n', 'c'] =
        tokenize ['a', ' ', ' ', 'b', '\n', 'c'] ∧
      rejoin (tokenize ['a', ' ', ' ', 'b', '\n', 'c']) =
        normalizeText ['a', ' ', ' ', 'b', '\n', 'c'] :=
  c3_tokenize_deterministic_rejoin ['a', ' ', ' ', 'b', '\n', 'c']
    ['a', ' ', ' ', 'b', '\n', 'c'] rfl

/-! Upsert (IndexedDB `put`) lemmas for the backup claims (C7, C8). -/

theorem find?_map_upsert {σ : Type} (key : σ → String) (x : σ) :
    ∀ l : List σ, l.any (fun y => key y == key x) = true →
      (l.map (fun y => if key y == key x then x else y)).find?
        (fun y => key y == key x) = some x
  | [], h => by simp at h
  | y :: ys, h => by
    by_cases hy : (key y == key x) = true
    · simp only [List.map_cons, if_pos hy]
      rw [List.find?_cons_of_pos _ (by simp)]
    · simp only [List.map_cons, if_neg hy]
      have h' : ys.any (fun y => key y == key x) = true := by
        simp only [List.any_cons, hy, Bool.false_or] at h
        exact h
      rw [List.find?_cons_of_neg _ (by simp [hy])]
      exact find?_map_upsert key x ys h'

theorem find?_putBy_self {σ : Type} (key : σ → String) (l : List σ) (x : σ) :
    (putBy key l x).find? (fun y => key y == key x) = some x := by
  unfold putBy
  split
  case isTrue h => exact find?_map_upsert key x l h
  case isFalse h =>
    rw [List.find?_append]
    have hnone : l.find? (fun y => key y == key x) = none := by
      rw [List.find?_eq_none]
      intro y hy hp
      exact h (List.any_eq_true.mpr ⟨y, hy, hp⟩)
    rw [hnone]
    simp

theorem find?_map_upsert_other {σ : Type} (key : σ → String) (x : σ)
    (c : String) (hne : key x ≠ c) :
    ∀ l : List σ,
      (l.map (fun y => if key y == key x then x else y)).find?
          (fun y => key y == c) =
        l.find? (fun y => key y == c)
  | [] => rfl
  | y :: ys => by
    by_cases hy : (key y == key x) = true
    · have hyx : key y = key x := by simpa using hy
      have hyc : (key y == c) = false := by
        rw [hyx]
        exact beq_eq_false_iff_ne.mpr hne
      have hxc : (key x == c) = false := beq_eq_false_iff_ne.mpr hne
      simp only [List.map_cons, if_pos hy]
      rw [List.find?_cons_of_neg _ (by simp [hxc]),
        List.find?_cons_of_neg _ (by simp [hyc])]
      exact find?_map_upsert_other key x c hne ys
    · simp only [List.map_cons, if_neg hy]
      by_cases hyc : (key y == c) = true
      · rw [List.find?_cons_of_pos _ (by simpa using hyc),
          List.find?_cons_of_pos _ (by simpa using hyc)]
      · rw [List.find?_cons_of_neg _ (by simp [hyc]),
          List.find?_cons_of_neg _ (by simp [hyc])]
        exact find?_map_upsert_other key x c hne ys

theorem find?_putBy_other {σ : Type} (key : σ → String) (l : List σ) (x : σ)
    (c : String) (hne : key x ≠ c) :
    (putBy key l x).find? (fun y => key y == c) =
      l.find? (fun y => key y == c) := by
  unfold putBy
  split
  · exact find?_map_upsert_other key x c hne l
  · rw [List.find?_append]
    have hsing : [x].find? (fun y => key y == c) = none := by
      simp [beq_eq_false_iff_ne.mpr hne]
    rw [hsing]
    cases l.find? (fun y => key y == c) <;> rfl

theorem foldl_putBy_frozen {σ : Type} (key : σ → String) (c : String) :
    ∀ (file : List σ) (l : List σ), (∀ x ∈ file, key x ≠ c) →
      (file.foldl (putBy key) l).find? (fun y => key y == c) =
        l.find? (fun y => key y == c)
  | [], l, _ => rfl
  | f :: fs, l, h => by
    rw [List.foldl_cons,
      foldl_putBy_frozen key c fs (putBy key l f)
        (fun x hx => h x (List.mem_cons_of_mem f hx)),
      find?_putBy_other key l f c (h f (List.mem_cons_self f fs))]

theorem foldl_putBy_found {σ : Type} (key : σ → String) :
    ∀ (file : List σ) (b : σ) (l : List σ), (file.map key).Nodup →
      b ∈ file →
      (file.foldl (putBy key) l).find? (fun y => key y == key b) = some b
  | [], b, l, _, hb => absurd hb (List.not_mem_nil b)
  | f :: fs, b, l, hnd, hb => by
    rcases List.mem_cons.mp hb with h | h
    · subst h
      rw [List.foldl_cons]
      have hfresh : ∀ x ∈ fs, key x ≠ key b := by
        intro x hx heq
        have : key b ∈ fs.map key := heq ▸ List.mem_map_of_mem key hx
        exact (List.nodup_cons.mp (by simpa using hnd)).1 this
      rw [foldl_putBy_frozen key (key b) fs (putBy key l b) hfresh]
      exact find?_putBy_self key l b
    · rw [List.foldl_cons]
      exact foldl_putBy_found key fs b (putBy key l f)
        (List.nodup_cons.mp (by simpa using hnd)).2 h

theorem foldl_putBy_disjoint {σ : Type} (key : σ → String) :
    ∀ (file : List σ) (acc : List σ), (file.map key).Nodup →
      (∀ x ∈ file, ∀ y ∈ acc, key y ≠ key x) →
      file.foldl (putBy key) acc = acc ++ file
  | [], acc, _, _ => by simp
  | f :: fs, acc, hnd, hdisj => by
    have hput : putBy key acc f = acc ++ [f] := by
      unfold putBy
      rw [if_neg]
      intro hany
      obtain ⟨y, hy, hp⟩ := List.any_eq_true.mp hany
      exact hdisj f (List.mem_cons_self f fs) y hy (by simpa using hp)
    rw [List.foldl_cons, hput,
      foldl_putBy_disjoint key fs (acc ++ [f])
        (List.nodup_cons.mp (by simpa using hnd)).2 ?_]
    · simp
    · intro x hx y hy
      rcases List.mem_append.mp hy with h | h
      · exact hdisj x (List.mem_cons_of_mem f hx) y h
      · have hyf : y = f := List.mem_singleton.mp h
        subst hyf
        intro heq
        have : key x ∈ fs.map key := List.mem_map_of_mem key hx
        rw [← heq] at this
        exact (List.nodup_cons.mp (by simpa using hnd)).1 this

theorem foldl_putBy_nil {σ : Type} (key : σ → String) (file : List σ)
    (hnd : (file.map key).Nodup) :
    file.foldl (putBy key) [] = file := by
  have := foldl_putBy_disjoint key file [] hnd (by simp)
  simpa using this

/-- C7: backup round-trip — exporting a store and importing the backup into
an empty store reproduces the same books, folders and glossary entries (and
settings), record for record, provided the store's collections have distinct
keys (guaranteed by the IndexedDB key paths). -/
theorem c7_backup_roundtrip {α β : Type} (s : Store α β) (now : Int)
    (hb : (s.books.map Book.id).Nodup)
    (hf : (s.folders.map Folder.id).Nodup)
    (hg : (s.glossary.map GlossaryItem.word).Nodup) :
    importBackup emptyStore (.value (exportBackup now s)) = (s, true) := by
  obtain ⟨bs, fs, gs, a, vo⟩ := s
  have hgv : glossaryValues gs = gs := foldl_putBy_nil _ gs hg
  simp only [importBackup, exportBackup, emptyStore]
  rw [if_pos (by decide : versionTruthy (some 1) = true)]
  cases a <;> cases vo <;>
    simp [foldl_putBy_nil _ bs hb, foldl_putBy_nil _ fs hf, hgv,
      foldl_putBy_nil _ gs hg]

/-- One-record store used to witness the round-trip. -/
def exBook : Book := ⟨"b1", "T", "hello", 1, 0, 0, 0, none, none, none⟩

/-- One glossary record used to witness the round-trip. -/
def exGloss : GlossaryItem :=
  ⟨"w", "d", none, none, none, none, none, none, none, 0⟩

/-- Store with one book, two folders and one glossary entry. -/
def exStore7 : Store Unit Unit := ⟨[exBook], exFolders, [exGloss], none, none⟩

/-- Witness for C7 on a small concrete store. -/
theorem c7_backup_roundtrip_witness :
    importBackup emptyStore (.value (exportBackup 42 exStore7)) =
      (exStore7, true) :=
  c7_backup_roundtrip exStore7 42 (by decide) (by decide) (by decide)

/-- C8: `importBackup` validates the version tag and is atomic on failure —
a malformed string, a falsy parsed value, or a missing/falsy version tag
makes the call fail with all four collections untouched; a validated snapshot
succeeds, every record of the file is retrievable afterwards (overwriting
same-key records), and records whose keys do not occur in the file are left
exactly as before (nothing is deleted). -/
theorem c8_import_validation_atomicity {α β : Type} (s : Store α β) :
    importBackup s .malformed = (s, false) ∧
    importBackup s .nullValue = (s, false) ∧
    (∀ v : BackupData α β, v.version = none ∨ v.version = some 0 →
      importBackup s (.value v) = (s, false)) ∧
    (∀ v : BackupData α β, versionTruthy v.version = true →
      (importBackup s (.value v)).2 = true ∧
      (((v.books.getD []).map Book.id).Nodup →
        ∀ b ∈ v.books.getD [],
          (importBackup s (.value v)).1.books.find?
            (fun y => Book.id y == Book.id b) = some b) ∧
      (∀ c : String, (∀ b ∈ v.books.getD [], Book.id b ≠ c) →
        (importBackup s (.value v)).1.books.find? (fun y => Book.id y == c) =
          s.books.find? (fun y => Book.id y == c)) ∧
      (((v.folders.getD []).map Folder.id).Nodup →
        ∀ f ∈ v.folders.getD [],
          (importBackup s (.value v)).1.folders.find?
            (fun y => Folder.id y == Folder.id f) = some f) ∧
      (∀ c : String, (∀ f ∈ v.folders.getD [], Folder.id f ≠ c) →
        (importBackup s (.value v)).1.folders.find?
          (fun y => Folder.id y == c) =
          s.folders.find? (fun y => Folder.id y == c)) ∧
      (((v.glossary.getD []).map GlossaryItem.word).Nodup →
        ∀ g ∈ v.glossary.getD [],
          (importBackup s (.value v)).1.glossary.find?
            (fun y => GlossaryItem.word y == GlossaryItem.word g) = some g) ∧
      (∀ c : String, (∀ g ∈ v.glossary.getD [], GlossaryItem.word g ≠ c) →
        (importBackup s (.value v)).1.glossary.find?
          (fun y => GlossaryItem.word y == c) =
          s.glossary.find? (fun y => GlossaryItem.word y == c))) := by
  refine ⟨rfl, rfl, ?_, ?_⟩
  · intro v hv
    rcases hv with h | h <;> simp [importBackup, versionTruthy, h]
  · intro v hv
    have himp : importBackup s (.value v) =
        ({ books := (v.books.getD []).foldl (putBy Book.id) s.books
           folders := (v.folders.getD []).foldl (putBy Folder.id) s.folders
           glossary := (v.glossary.getD []).foldl (putBy GlossaryItem.word)
             s.glossary
           app := match v.settings with
             | none => s.app
             | some sl => match sl.1 with
               | none => s.app
               | some a => some a
           voice := match v.settings with
             | none => s.voice
             | some sl => match sl.2 with
               | none => s.voice
               | some b => some b }, true) := by
      simp only [importBackup, hv, if_true]
    refine ⟨by rw [himp], ?_, ?_, ?_, ?_, ?_, ?_⟩
    · intro hnd b hb
      rw [himp]
      exact foldl_putBy_found Book.id (v.books.getD []) b s.books hnd hb
    · intro c hc
      rw [himp]
      exact foldl_putBy_frozen Book.id c (v.books.getD []) s.books hc
    · intro hnd f hf
      rw [himp]
      exact foldl_putBy_found Folder.id (v.folders.getD []) f s.folders hnd hf
    · intro c hc
      rw [himp]
      exact foldl_putBy_frozen Folder.id c (v.folders.getD []) s.folders hc
    · intro hnd g hg
      rw [himp]
      exact foldl_putBy_found GlossaryItem.word (v.glossary.getD []) g
        s.glossary hnd hg
    · intro c hc
      rw [himp]
      exact foldl_putBy_frozen GlossaryItem.word c (v.glossary.getD [])
        s.glossary hc

/-- Witness for C8: a malformed backup leaves the empty store untouched and
fails, while a minimal snapshot with version 1 succeeds. -/
theorem c8_import_validation_atomicity_witness :
    importBackup (emptyStore : Store Unit Unit) .malformed =
        (emptyStore, false) ∧
      (importBackup (emptyStore : Store Unit Unit)
        (.value ⟨some 1, none, none, none, none, none⟩)).2 = true :=
  ⟨(c8_import_validation_atomicity emptyStore).1,
    ((c8_import_validation_atomicity emptyStore).2.2.2
      ⟨some 1, none, none, none, none, none⟩ (by decide)).1⟩

end ZenRead
